import Mathlib

/-!
# Verification of the wezterm terminal-multiplexer core

Shallow embedding, in Lean 4, of the parts of the `dsp/wezterm` repository
that the specification's claims are about:

* `src/server/codec.rs` — LEB128-framed mux RPC protocol (`encode_raw`,
  `decode_raw`, `serialize`, `Pdu::encode`, `Pdu::decode`);
* `src/mux/mod.rs` — the `Mux` registry of tabs and windows
  (`add_tab`, `new_empty_window`, `add_tab_to_window`, `remove_tab`);
* `src/server/tab.rs` — the `ClientTab` remote-tab shadow and its
  `RenderableState` polling state machine;
* `pty/src/cmdbuilder.rs` — Windows command-line rendering
  (`append_quoted`, `cmdline`).

Byte and UTF-16 strings are modelled as `List Nat`; machine integers as
`Nat` with explicit masks where the source relies on fixed-width behaviour.
Fallible Rust functions return `Except`; a Rust panic is modelled as a
distinguished error constructor so that panics and returned errors can be
told apart in theorems.
-/

namespace Wezterm

/-! ## LEB128 varints (external `leb128` crate used by `codec.rs`)

`leb128::write::unsigned` emits the low seven bits of the value per byte,
least significant group first, with the continuation bit `0x80` set on every
byte except the last.  `leb128::read::unsigned` inverts this. -/

/-- One unsigned LEB128 value, least-significant 7-bit group first. -/
def lebWrite (v : Nat) : List Nat :=
  if h : v < 128 then [v]
  else (v % 128 + 128) :: lebWrite (v / 128)
termination_by v
decreasing_by exact Nat.div_lt_self (by omega) (by omega)

/-- Read one unsigned LEB128 value from the head of the stream, returning the
value and the remaining bytes; `none` models an I/O error (stream ended
inside the varint). -/
def lebRead : List Nat → Option (Nat × List Nat)
  | [] => none
  | b :: rest =>
    if b < 128 then some (b, rest)
    else (lebRead rest).map (fun vr => (b - 128 + 128 * vr.1, vr.2))

/-- `encoded_length` from `codec.rs`: the length of the leb128 representation
of `value` (the source computes it by writing to a `NullWrite` sink). -/
def encoded_length (value : Nat) : Nat := (lebWrite value).length

theorem lebRead_lebWrite_append (v : Nat) (rest : List Nat) :
    lebRead (lebWrite v ++ rest) = some (v, rest) := by
  induction v using Nat.strong_induction_on with
  | _ v ih =>
    rw [lebWrite]
    by_cases h : v < 128
    · simp [h, lebRead]
    · have hlt : v / 128 < v := Nat.div_lt_self (by omega) (by omega)
      have hb : ¬ (v % 128 + 128 < 128) := by omega
      rw [dif_neg h]
      simp only [lebRead, List.cons_append, List.append_eq]
      rw [if_neg hb, ih _ hlt, Option.map_some']
      have hv : v % 128 + 128 - 128 + 128 * (v / 128) = v := by omega
      rw [hv]

/-! ## Frame codec (`encode_raw` / `decode_raw` from `codec.rs`) -/

/-- `COMPRESSED_MASK: u64 = 1 << 63`. -/
def COMPRESSED_MASK : Nat := 2 ^ 63

/-- The `Decoded` struct from `codec.rs`. -/
structure Decoded where
  ident : Nat
  serial : Nat
  data : List Nat
  is_compressed : Bool
deriving DecidableEq, Repr

/-- Outcomes of `decode_raw` other than success.  `ioError` models a returned
`std::io::Error` (leb128 read failure or `read_exact` hitting EOF);
`panicked` models a Rust panic: the source computes
`len as usize - (encoded_length(ident) + encoded_length(serial))` with a bare
`-`, which panics on underflow in debug builds and, after wrapping, panics
with a capacity overflow in `vec![0u8; data_len]` in release builds. -/
inductive DecodeErr where
  | ioError
  | panicked
deriving DecidableEq, Repr

/-- `encode_raw` from `codec.rs`: frame format is
`tagged_len` (leb128, u64 msb set iff the data is compressed), then
`serial` (leb128), then `ident` (leb128), then the raw data bytes.
`tagged_len` (masked) is `data.len() + encoded_length(ident) +
encoded_length(serial)`.  The `usize → u64` cast is lossless on the 64-bit
targets the source supports, so no wrap is applied to `len` here. -/
def encode_raw (ident serial : Nat) (data : List Nat) (is_compressed : Bool) :
    List Nat :=
  let len := data.length + encoded_length ident + encoded_length serial
  let masked_len := if is_compressed then len ||| COMPRESSED_MASK else len
  lebWrite masked_len ++ lebWrite serial ++ lebWrite ident ++ data

/-- `decode_raw` from `codec.rs`.  Reads `tagged_len`, unmasks the compression
bit with `len & !COMPRESSED_MASK`, reads `serial` and `ident`, then reads
exactly `len - (encoded_length(ident) + encoded_length(serial))` data bytes.
The subtraction is the unchecked `usize` subtraction of the source: when
`len` is smaller than the combined header lengths the source panics, which we
record as `DecodeErr.panicked`. -/
def decode_raw (input : List Nat) : Except DecodeErr Decoded :=
  match lebRead input with
  | none => .error .ioError
  | some (len0, r1) =>
    let lc : Nat × Bool :=
      if len0 &&& COMPRESSED_MASK ≠ 0 then (len0 &&& (COMPRESSED_MASK - 1), true)
      else (len0, false)
    match lebRead r1 with
    | none => .error .ioError
    | some (serial, r2) =>
      match lebRead r2 with
      | none => .error .ioError
      | some (ident, r3) =>
        if lc.1 < encoded_length ident + encoded_length serial then
          .error .panicked
        else
          let data_len := lc.1 - (encoded_length ident + encoded_length serial)
          if r3.length < data_len then .error .ioError
          else .ok ⟨ident, serial, r3.take data_len, lc.2⟩

/-! Bitwise helper lemmas for the compression mask. -/

theorem testBit_high_false {a i : Nat} (h : a < 2 ^ 63) (hi : 63 ≤ i) :
    a.testBit i = false := by
  apply Nat.testBit_lt_two_pow
  calc a < 2 ^ 63 := h
    _ ≤ 2 ^ i := Nat.pow_le_pow_right (by omega) hi

theorem land_mask_eq_zero {a : Nat} (h : a < 2 ^ 63) :
    a &&& COMPRESSED_MASK = 0 := by
  apply Nat.eq_of_testBit_eq
  intro i
  rw [Nat.testBit_and, Nat.zero_testBit, COMPRESSED_MASK]
  rcases Nat.lt_or_ge i 63 with hi | hi
  · rw [Nat.testBit_two_pow_of_ne (by omega : 63 ≠ i)]
    rw [Bool.and_false]
  · rw [testBit_high_false h hi, Bool.false_and]

theorem lor_mask_land_mask_ne_zero (a : Nat) :
    (a ||| COMPRESSED_MASK) &&& COMPRESSED_MASK ≠ 0 := by
  intro hcontra
  have h : ((a ||| COMPRESSED_MASK) &&& COMPRESSED_MASK).testBit 63 =
      Nat.testBit 0 63 := by rw [hcontra]
  rw [Nat.testBit_and, Nat.testBit_or, Nat.zero_testBit, COMPRESSED_MASK,
    Nat.testBit_two_pow_self, Bool.or_true, Bool.true_and] at h
  exact Bool.noConfusion h

theorem lor_mask_land_inv {a : Nat} (h : a < 2 ^ 63) :
    (a ||| COMPRESSED_MASK) &&& (COMPRESSED_MASK - 1) = a := by
  apply Nat.eq_of_testBit_eq
  intro i
  rw [Nat.testBit_and, Nat.testBit_or, COMPRESSED_MASK]
  rcases Nat.lt_or_ge i 63 with hi | hi
  · rw [Nat.testBit_two_pow_of_ne (by omega : 63 ≠ i),
      Nat.testBit_two_pow_sub_one]
    have hd : decide (i < 63) = true := by simp [hi]
    rw [hd, Bool.or_false, Bool.and_true]
  · rw [testBit_high_false h hi, Nat.testBit_two_pow_sub_one]
    have hd : decide (i < 63) = false := by simp; omega
    rw [hd, Bool.and_false]

/-- The round-trip core: decoding an encoded frame recovers the header fields
and payload, provided the masked length fits below the compression bit
(`Vec` lengths in Rust are bounded by `isize::MAX = 2^63 - 1`, so every
realizable frame satisfies the bound). -/
theorem decode_raw_encode_raw (ident serial : Nat) (data : List Nat)
    (is_compressed : Bool)
    (hlen : data.length + encoded_length ident + encoded_length serial < 2 ^ 63) :
    decode_raw (encode_raw ident serial data is_compressed) =
      .ok ⟨ident, serial, data, is_compressed⟩ := by
  unfold encode_raw decode_raw
  simp only [List.append_assoc]
  rw [lebRead_lebWrite_append]
  cases is_compressed with
  | false =>
    simp only [if_false, Bool.false_eq_true]
    have hz := land_mask_eq_zero hlen
    simp only [hz, ne_eq, not_true_eq_false, if_false, ite_false,
      lebRead_lebWrite_append]
    have hge : ¬ (data.length + encoded_length ident + encoded_length serial <
        encoded_length ident + encoded_length serial) := by omega
    simp only [hge, if_false, ite_false]
    have hdl : data.length + encoded_length ident + encoded_length serial -
        (encoded_length ident + encoded_length serial) = data.length := by omega
    rw [hdl]
    simp
  | true =>
    simp only [if_true, ite_true]
    have hne := lor_mask_land_mask_ne_zero
      (data.length + encoded_length ident + encoded_length serial)
    simp only [hne, ne_eq, not_false_eq_true, if_true, ite_true,
      lebRead_lebWrite_append]
    rw [lor_mask_land_inv hlen]
    have hge : ¬ (data.length + encoded_length ident + encoded_length serial <
        encoded_length ident + encoded_length serial) := by omega
    simp only [hge, if_false, ite_false]
    have hdl : data.length + encoded_length ident + encoded_length serial -
        (encoded_length ident + encoded_length serial) = data.length := by omega
    rw [hdl]
    simp

/-! Evaluation lemmas for concrete varints (the definition of `lebWrite` uses
well-founded recursion, so concrete values are computed through its equation
lemmas rather than by kernel reduction). -/

theorem lebWrite_lt {v : Nat} (h : v < 128) : lebWrite v = [v] := by
  rw [lebWrite]
  simp [h]

theorem lebWrite_ge {v : Nat} (h : 128 ≤ v) :
    lebWrite v = (v % 128 + 128) :: lebWrite (v / 128) := by
  rw [lebWrite]
  simp [Nat.not_lt_of_ge h]

theorem lebWrite_0x42 : lebWrite 0x42 = [0x42] := lebWrite_lt (by norm_num)

theorem lebWrite_0x81 : lebWrite 0x81 = [0x81, 0x01] := by
  rw [lebWrite_ge (by norm_num)]
  norm_num [lebWrite_lt]

theorem lebWrite_0xdeadbeef :
    lebWrite 0xdeadbeef = [0xef, 0xfd, 0xb6, 0xf5, 0x0d] := by
  norm_num [lebWrite_ge, lebWrite_lt]

theorem encoded_length_0x42 : encoded_length 0x42 = 1 := by
  rw [encoded_length, lebWrite_0x42]
  rfl

theorem encoded_length_0x81 : encoded_length 0x81 = 2 := by
  rw [encoded_length, lebWrite_0x81]
  rfl

theorem encoded_length_0xdeadbeef : encoded_length 0xdeadbeef = 5 := by
  rw [encoded_length, lebWrite_0xdeadbeef]
  rfl

/-! ## PDU layer (`serialize`, `Pdu::encode`, `Pdu::decode` from `codec.rs`)

The per-variant payload types are serialized with the external `varbincode`
crate and optionally compressed with the external `zstd` crate; both are
outside this repository, so they enter the model as abstract functions: the
varbincode bytes of a value are an input, and zstd compression is a function
parameter.  The sixteen concrete PDU variants of the `pdu!` macro invocation
are represented by their assigned numeric tags. -/

/-- The assigned tags of the `pdu!` macro invocation in `codec.rs`:
`ErrorResponse: 0` through `Resize: 14`, plus `SendMouseEventResponse: 17`. -/
def pduTags : List Nat := [0, 1, 2, 3, 4, 5, 6, 7, 8, 9, 10, 11, 12, 13, 14, 17]

/-- The `Pdu` enum: `Invalid{ident}` plus the named variants.  A named
variant is represented by its assigned tag and its (abstract) deserialized
payload value. -/
inductive Pdu (α : Type) where
  | Invalid (ident : Nat)
  | Known (tag : Nat) (value : α)
deriving DecidableEq, Repr

/-- The `DecodedPdu` struct from `codec.rs`. -/
structure DecodedPdu (α : Type) where
  serial : Nat
  pdu : Pdu α
deriving DecidableEq, Repr

/-- Errors of `Pdu::decode`: a frame-level error from `decode_raw`, or a
`deserialize` failure from the serde layer. -/
inductive PduError where
  | frame (e : DecodeErr)
  | deserializeFailed
deriving DecidableEq, Repr

/-- `COMPRESS_THRESH: usize = 32` from `codec.rs`. -/
def COMPRESS_THRESH : Nat := 32

/-- `serialize` from `codec.rs`.  `uncompressed` is the varbincode encoding of
the value (external crate, hence an input); `compress` is zstd at its default
level (external crate, hence a parameter).  If the uncompressed form is at
most `COMPRESS_THRESH` bytes it is used as-is; otherwise the compressed form
is used iff it is strictly shorter. -/
def serialize (uncompressed : List Nat) (compress : List Nat → List Nat) :
    List Nat × Bool :=
  if uncompressed.length ≤ COMPRESS_THRESH then (uncompressed, false)
  else
    let compressed := compress uncompressed
    if compressed.length < uncompressed.length then (compressed, true)
    else (uncompressed, false)

/-- `Pdu::encode` from the `pdu!` macro in `codec.rs`: `Pdu::Invalid` bails
with "attempted to serialize Pdu::Invalid" before anything is written, so the
error case produces no bytes; a named variant serializes its payload and
writes one frame via `encode_raw` with its assigned tag.  The returned list
is the byte sequence written to the output writer. -/
def Pdu.encode {α : Type} (ser : α → List Nat) (compress : List Nat → List Nat)
    (p : Pdu α) (serial : Nat) : Except Unit (List Nat) :=
  match p with
  | .Invalid _ => .error ()
  | .Known tag v =>
    let dc := serialize (ser v) compress
    .ok (encode_raw tag serial dc.1 dc.2)

/-- `Pdu::decode` from the `pdu!` macro in `codec.rs`: decode the frame, then
match the `ident` against the sixteen assigned tags — a known tag
deserializes the payload with that variant's deserializer (the abstract
`deser` family), the catch-all arm produces `Pdu::Invalid{ident}` with the
frame's serial. -/
def Pdu.decode {α : Type} (deser : Nat → List Nat → Bool → Except Unit α)
    (input : List Nat) : Except PduError (DecodedPdu α) :=
  match decode_raw input with
  | .error e => .error (.frame e)
  | .ok d =>
    if d.ident ∈ pduTags then
      match deser d.ident d.data d.is_compressed with
      | .error _ => .error .deserializeFailed
      | .ok v => .ok ⟨d.serial, .Known d.ident v⟩
    else .ok ⟨d.serial, .Invalid d.ident⟩

/-! ## Claim theorems for the codec -/

/-- **C1.** For every ident, serial, payload and compressed flag (with the
masked length below the compression bit, as guaranteed for every realizable
Rust `Vec`), `decode_raw` of the bytes produced by `encode_raw` returns
exactly that ident, serial, payload and compressed flag; and
`encode_raw(ident=0x81, serial=0x42, payload="hello", compressed=false)`
yields exactly the bytes `08 42 81 01 68 65 6C 6C 6F` (tagged_len, serial,
ident, then the raw payload). -/
theorem C1_frame_roundtrip :
    (∀ (ident serial : Nat) (data : List Nat) (c : Bool),
      ident < 2 ^ 64 → serial < 2 ^ 64 →
      data.length + encoded_length ident + encoded_length serial < 2 ^ 63 →
      decode_raw (encode_raw ident serial data c) =
        .ok ⟨ident, serial, data, c⟩) ∧
    encode_raw 0x81 0x42 [0x68, 0x65, 0x6c, 0x6c, 0x6f] false =
      [0x08, 0x42, 0x81, 0x01, 0x68, 0x65, 0x6c, 0x6c, 0x6f] := by
  constructor
  · intro ident serial data c _ _ hlen
    exact decode_raw_encode_raw ident serial data c hlen
  · show lebWrite _ ++ lebWrite 0x42 ++ lebWrite 0x81 ++ _ = _
    norm_num [encoded_length_0x81, encoded_length_0x42, lebWrite_0x81,
      lebWrite_0x42, lebWrite_lt]

/-- Witness for C1 at the spec's concrete frame example. -/
theorem C1_frame_roundtrip_witness :
    decode_raw (encode_raw 0x81 0x42 [0x68, 0x65, 0x6c, 0x6c, 0x6f] false) =
      .ok ⟨0x81, 0x42, [0x68, 0x65, 0x6c, 0x6c, 0x6f], false⟩ :=
  C1_frame_roundtrip.1 0x81 0x42 [0x68, 0x65, 0x6c, 0x6c, 0x6f] false
    (by norm_num) (by norm_num)
    (by norm_num [encoded_length_0x81, encoded_length_0x42])

/-- Unfolding lemma: `Pdu::decode` on an input whose frame decodes to `d`
dispatches on `d.ident` against the tag table. -/
theorem Pdu.decode_of_decode_raw {α : Type}
    (deser : Nat → List Nat → Bool → Except Unit α) (input : List Nat)
    (d : Decoded) (h : decode_raw input = .ok d) :
    Pdu.decode deser input =
      if d.ident ∈ pduTags then
        match deser d.ident d.data d.is_compressed with
        | .error _ => .error .deserializeFailed
        | .ok v => .ok ⟨d.serial, .Known d.ident v⟩
      else .ok ⟨d.serial, .Invalid d.ident⟩ := by
  rw [Pdu.decode, h]

/-- **C2.** A frame whose ident is none of the assigned tags decodes to
`Pdu::Invalid{ident}` carrying the frame's serial; a frame with an assigned
tag is decoded by that tag's deserializer (so the `Invalid` fallback does not
affect any assigned tag); and the concrete frame with `ident=0xdeadbeef`,
`serial=0x42`, payload `"hello"` decodes to
`DecodedPdu{serial=0x42, pdu=Invalid{ident=0xdeadbeef}}`. -/
theorem C2_unknown_ident_decodes_invalid :
    (∀ (α : Type) (deser : Nat → List Nat → Bool → Except Unit α)
      (ident serial : Nat) (data : List Nat) (c : Bool),
      ident ∉ pduTags →
      data.length + encoded_length ident + encoded_length serial < 2 ^ 63 →
      Pdu.decode deser (encode_raw ident serial data c) =
        .ok ⟨serial, .Invalid ident⟩) ∧
    (∀ (α : Type) (deser : Nat → List Nat → Bool → Except Unit α)
      (tag serial : Nat) (data : List Nat) (c : Bool),
      tag ∈ pduTags →
      data.length + encoded_length tag + encoded_length serial < 2 ^ 63 →
      Pdu.decode deser (encode_raw tag serial data c) =
        match deser tag data c with
        | .ok v => .ok ⟨serial, .Known tag v⟩
        | .error _ => .error .deserializeFailed) ∧
    (∀ (α : Type) (deser : Nat → List Nat → Bool → Except Unit α),
      Pdu.decode deser
          (encode_raw 0xdeadbeef 0x42 [0x68, 0x65, 0x6c, 0x6c, 0x6f] false) =
        .ok ⟨0x42, .Invalid 0xdeadbeef⟩) := by
  refine ⟨?_, ?_, ?_⟩
  · intro α deser ident serial data c hmem hlen
    rw [Pdu.decode_of_decode_raw deser _ _
      (decode_raw_encode_raw ident serial data c hlen)]
    exact if_neg hmem
  · intro α deser tag serial data c hmem hlen
    rw [Pdu.decode_of_decode_raw deser _ _
      (decode_raw_encode_raw tag serial data c hlen), if_pos hmem]
    cases h : deser tag data c with
    | ok v => rfl
    | error e => rfl
  · intro α deser
    have hmem : (0xdeadbeef : Nat) ∉ pduTags := by decide
    rw [Pdu.decode_of_decode_raw deser _ _
      (decode_raw_encode_raw 0xdeadbeef 0x42 [0x68, 0x65, 0x6c, 0x6c, 0x6f] false
        (by rw [encoded_length_0xdeadbeef, encoded_length_0x42]; norm_num))]
    exact if_neg hmem

/-- Witness for C2: the spec's bogus-PDU example, with a deserializer that
would reject every payload, still decodes to `Invalid{0xdeadbeef}`. -/
theorem C2_unknown_ident_decodes_invalid_witness :
    Pdu.decode (fun _ _ _ => (.error () : Except Unit Unit))
        (encode_raw 0xdeadbeef 0x42 [0x68, 0x65, 0x6c, 0x6c, 0x6f] false) =
      .ok ⟨0x42, .Invalid 0xdeadbeef⟩ :=
  C2_unknown_ident_decodes_invalid.2.2 Unit (fun _ _ _ => .error ())

/-- **C3.** For every PDU body: when the varbincode serialization is at most
32 bytes the payload is written uncompressed with the compressed flag clear;
when it exceeds 32 bytes the compressed flag is set iff the zstd-compressed
form is strictly shorter, the shorter of the two forms is the payload
written, and the flag chosen by `serialize` is exactly the compression bit
recovered from the encoded frame. -/
theorem C3_compression_choice :
    ∀ (u : List Nat) (compress : List Nat → List Nat),
      (u.length ≤ 32 → serialize u compress = (u, false)) ∧
      (32 < u.length →
        ((serialize u compress).2 = true ↔ (compress u).length < u.length) ∧
        (serialize u compress).1 =
          if (compress u).length < u.length then compress u else u) ∧
      (∀ tag serial : Nat,
        (serialize u compress).1.length + encoded_length tag +
            encoded_length serial < 2 ^ 63 →
        decode_raw (encode_raw tag serial (serialize u compress).1
            (serialize u compress).2) =
          .ok ⟨tag, serial, (serialize u compress).1,
            (serialize u compress).2⟩) := by
  intro u compress
  refine ⟨?_, ?_, ?_⟩
  · intro hle
    rw [serialize, if_pos (by simpa [COMPRESS_THRESH] using hle)]
  · intro hgt
    have hnle : ¬ (u.length ≤ COMPRESS_THRESH) := by
      simp only [COMPRESS_THRESH]
      omega
    constructor
    · rw [serialize, if_neg hnle]
      by_cases hc : (compress u).length < u.length
      · simp [hc]
      · simp [hc]
    · rw [serialize, if_neg hnle]
      by_cases hc : (compress u).length < u.length
      · simp [hc]
      · simp [hc]
  · intro tag serial hlen
    exact decode_raw_encode_raw tag serial _ _ hlen

/-- Witness for C3: a 33-byte body whose "compression" shrinks it to 2 bytes
is sent compressed. -/
theorem C3_compression_choice_witness :
    ((serialize (List.replicate 33 7) (fun _ => [1, 2])).2 = true) ∧
    (serialize (List.replicate 7 7) (fun _ => [1, 2]) =
      (List.replicate 7 7, false)) := by
  have h33 := C3_compression_choice (List.replicate 33 7) (fun _ => [1, 2])
  have h7 := C3_compression_choice (List.replicate 7 7) (fun _ => [1, 2])
  exact ⟨((h33.2.1 (by simp)).1).mpr (by simp), h7.1 (by simp)⟩

/-- **C7** (code bug).  `decode_raw` does return an error (not a panic) for a
frame whose payload bytes are fewer than `tagged_len` implies, but for a
frame whose masked `tagged_len` is smaller than the combined encoded lengths
of its serial and ident fields it PANICS (unchecked `usize` subtraction)
instead of returning an error: the frame `02 42 81 01` declares
`tagged_len = 2` while `serial=0x42` and `ident=0x81` alone occupy 3 encoded
bytes. -/
theorem C7_malformed_frame_panics :
    decode_raw [0x02, 0x42, 0x81, 0x01] = .error .panicked ∧
    decode_raw [0x08, 0x42, 0x81, 0x01, 0x68] = .error .ioError := by
  have h2 : (2 : Nat) &&& COMPRESSED_MASK = 0 := land_mask_eq_zero (by norm_num)
  have h8 : (8 : Nat) &&& COMPRESSED_MASK = 0 := land_mask_eq_zero (by norm_num)
  constructor
  · rw [decode_raw]
    norm_num [lebRead, h2, encoded_length_0x81, encoded_length_0x42]
  · rw [decode_raw]
    norm_num [lebRead, h8, encoded_length_0x81, encoded_length_0x42]

/-- **C10.** `Pdu::encode` on `Pdu::Invalid{ident}` fails for every serial
(and, returning the error before anything reaches the writer, writes no
bytes); exactly the named variants with assigned tags encode successfully. -/
theorem C10_encode_invalid_fails :
    (∀ (α : Type) (ser : α → List Nat) (compress : List Nat → List Nat)
      (ident serial : Nat),
      Pdu.encode ser compress (Pdu.Invalid ident) serial = .error ()) ∧
    (∀ (α : Type) (ser : α → List Nat) (compress : List Nat → List Nat)
      (p : Pdu α) (serial : Nat),
      (∃ bytes, Pdu.encode ser compress p serial = .ok bytes) ↔
        ∀ ident, p ≠ Pdu.Invalid ident) := by
  constructor
  · intro α ser compress ident serial
    rfl
  · intro α ser compress p serial
    cases p with
    | Invalid ident =>
      simp [Pdu.encode]
    | Known tag v =>
      simp [Pdu.encode]

/-- Witness for C10 at a concrete `Invalid` value and serial. -/
theorem C10_encode_invalid_fails_witness :
    Pdu.encode (fun (_ : Unit) => ([] : List Nat)) id (Pdu.Invalid 0xdeadbeef)
        0x42 = .error () :=
  C10_encode_invalid_fails.1 Unit (fun _ => []) id 0xdeadbeef 0x42

/-! ## Windows command-line rendering (`pty/src/cmdbuilder.rs`)

Arguments are UTF-16 code-unit sequences (`OsStr::encode_wide`), modelled as
`List Nat`.  `CommandBuilder::search_path` consults the `PATH` and `PATHEXT`
process environment, which is external to the program, so it enters the model
as the abstract `resolve` parameter of `cmdline`. -/

/-- The early-return condition of `append_quoted`: quoting is skipped exactly
when the argument is non-empty and contains no space, tab, newline,
vertical-tab or double quote. -/
def needsQuoting (arg : List Nat) : Bool :=
  arg.isEmpty ||
    arg.any (fun c => c = 32 || c = 9 || c = 10 || c = 11 || c = 34)

/-- The while-loop of `append_quoted`.  The source counts a maximal run of
backslashes and then dispatches on what follows; here the run counter is the
accumulator `pending`.  At the end of the argument the pending run is emitted
doubled; before a quote it is emitted doubled plus one and the quote kept;
before any other character it is emitted unchanged, followed by that
character. -/
def quotedBody : Nat → List Nat → List Nat
  | pending, [] => List.replicate (2 * pending) 92
  | pending, c :: rest =>
    if c = 92 then quotedBody (pending + 1) rest
    else if c = 34 then
      List.replicate (2 * pending + 1) 92 ++ 34 :: quotedBody 0 rest
    else List.replicate pending 92 ++ c :: quotedBody 0 rest

/-- `CommandBuilder::append_quoted`: append the argument to `cmdline`,
enclosed in double quotes with the rewriting of `quotedBody` when quoting is
required, verbatim otherwise. -/
def append_quoted (arg cmdline : List Nat) : List Nat :=
  if needsQuoting arg = false then cmdline ++ arg
  else cmdline ++ 34 :: (quotedBody 0 arg ++ [34])

/-- An argument presented as its backslash-run decomposition: each segment is
a run of `n` backslashes followed by one non-backslash character, and the
argument ends with a trailing run of `trailing` backslashes. -/
def buildArg (segs : List (Nat × Nat)) (trailing : Nat) : List Nat :=
  (segs.map (fun s => List.replicate s.1 92 ++ [s.2])).flatten ++
    List.replicate trailing 92

/-- The `CommandLineToArgvW` image of a decomposed argument body: an embedded
backslash run is doubled before a quote (which additionally gains one more
backslash than its preceding run) and at the end of the argument, and is kept
as-is before any other character. -/
def quotedSegs (segs : List (Nat × Nat)) (trailing : Nat) : List Nat :=
  (segs.map (fun s =>
    if s.2 = 34 then List.replicate (2 * s.1 + 1) 92 ++ [34]
    else List.replicate s.1 92 ++ [s.2])).flatten ++
    List.replicate (2 * trailing) 92

theorem quotedBody_replicate (p n : Nat) (l : List Nat) :
    quotedBody p (List.replicate n 92 ++ l) = quotedBody (p + n) l := by
  induction n generalizing p with
  | zero => simp
  | succ k ih =>
    rw [List.replicate_succ, List.cons_append]
    show quotedBody p (92 :: _) = _
    rw [quotedBody]
    simp only [if_pos rfl, ite_true]
    rw [ih (p + 1)]
    congr 1
    omega

theorem quotedBody_buildArg (segs : List (Nat × Nat)) (trailing : Nat)
    (h : ∀ s ∈ segs, s.2 ≠ 92) :
    quotedBody 0 (buildArg segs trailing) = quotedSegs segs trailing := by
  induction segs with
  | nil =>
    rw [buildArg, quotedSegs]
    simp only [List.map_nil, List.flatten_nil, List.nil_append]
    rw [← List.append_nil (List.replicate trailing 92),
      quotedBody_replicate 0 trailing []]
    rw [quotedBody]
    congr 1
    omega
  | cons s segs ih =>
    obtain ⟨n, c⟩ := s
    have hc : c ≠ 92 := h (n, c) (List.mem_cons_self _ _)
    have hrest : ∀ s ∈ segs, s.2 ≠ 92 := fun s hs => h s (List.mem_cons_of_mem _ hs)
    have hb : buildArg ((n, c) :: segs) trailing =
        List.replicate n 92 ++ (c :: buildArg segs trailing) := by
      rw [buildArg, buildArg]
      simp [List.append_assoc]
    have hs : quotedSegs ((n, c) :: segs) trailing =
        (if c = 34 then List.replicate (2 * n + 1) 92 ++ [34]
          else List.replicate n 92 ++ [c]) ++ quotedSegs segs trailing := by
      rw [quotedSegs, quotedSegs]
      simp [List.append_assoc]
    rw [hb, hs, quotedBody_replicate 0 n, Nat.zero_add, quotedBody]
    simp only [if_neg hc, ite_false]
    by_cases hq : c = 34
    · subst hq
      simp only [if_pos rfl, ite_true]
      rw [ih hrest]
      simp [List.append_assoc]
    · simp only [if_neg hq, ite_false]
      rw [ih hrest]
      simp [List.append_assoc]

/-- **C8.** `append_quoted` follows the `CommandLineToArgvW` rules: an
argument containing space, tab, newline, vertical-tab or a double quote is
enclosed in double quotes with each embedded backslash run doubled exactly
before a quote or the end of the argument and each embedded quote prefixed by
one more backslash than its preceding run; an argument needing no quoting is
appended verbatim; `a "b" c` renders as `"a \"b\" c"`; and a quoted argument
ending in two backslashes renders them as four backslashes before the closing
quote. -/
theorem C8_append_quoted_argv_rules :
    (∀ (segs : List (Nat × Nat)) (trailing : Nat) (cmdline : List Nat),
      (∀ s ∈ segs, s.2 ≠ 92) →
      needsQuoting (buildArg segs trailing) = true →
      append_quoted (buildArg segs trailing) cmdline =
        cmdline ++ 34 :: (quotedSegs segs trailing ++ [34])) ∧
    (∀ arg cmdline : List Nat, needsQuoting arg = false →
      append_quoted arg cmdline = cmdline ++ arg) ∧
    append_quoted [97, 32, 34, 98, 34, 32, 99] [] =
      [34, 97, 32, 92, 34, 98, 92, 34, 32, 99, 34] ∧
    append_quoted [97, 32, 92, 92] [] = [34, 97, 32, 92, 92, 92, 92, 34] := by
  refine ⟨?_, ?_, by decide, by decide⟩
  · intro segs trailing cmdline hseg hq
    rw [append_quoted, if_neg (by rw [hq]; exact Bool.noConfusion),
      quotedBody_buildArg segs trailing hseg]
  · intro arg cmdline hq
    rw [append_quoted, if_pos hq]

/-- Witness for C8 at the spec's example `a "b" c`. -/
theorem C8_append_quoted_argv_rules_witness :
    append_quoted
        (buildArg [(0, 97), (0, 32), (0, 34), (0, 98), (0, 34), (0, 32), (0, 99)] 0)
        [] =
      [] ++ 34 ::
        (quotedSegs [(0, 97), (0, 32), (0, 34), (0, 98), (0, 34), (0, 32), (0, 99)] 0
          ++ [34]) :=
  C8_append_quoted_argv_rules.1
    [(0, 97), (0, 32), (0, 34), (0, 98), (0, 34), (0, 32), (0, 99)] 0 []
    (by decide) (by decide)

/-- The `CommandBuilder` struct of `cmdbuilder.rs`, restricted to its `args`
field (the env overrides play no part in `cmdline`).  `CommandBuilder::new`
always seeds `args` with the program, so argv is represented as the head
`argv0` plus the tail `argvRest`. -/
structure CommandBuilder where
  argv0 : List Nat
  argvRest : List (List Nat)
deriving DecidableEq, Repr

/-- `CommandBuilder::new(program)`. -/
def CommandBuilder.new (program : List Nat) : CommandBuilder := ⟨program, []⟩

/-- `CommandBuilder::arg`. -/
def CommandBuilder.arg (cb : CommandBuilder) (a : List Nat) : CommandBuilder :=
  ⟨cb.argv0, cb.argvRest ++ [a]⟩

/-- The `for arg in self.args.iter().skip(1)` loop of `cmdline`: push a
space, fail if the argument contains an embedded nul (`ensure!`), else append
the quoted argument; after the loop the command line is nul-terminated. -/
def cmdlineArgs : List (List Nat) → List Nat → Except Unit (List Nat)
  | [], acc => .ok (acc ++ [0])
  | a :: rest, acc =>
    let acc2 := acc ++ [32]
    if 0 ∈ a then .error ()
    else cmdlineArgs rest (append_quoted a acc2)

/-- `CommandBuilder::cmdline`: resolve argv[0] against the environment
(`search_path`, abstracted as `resolve`), quote it into the command line,
nul-terminate the module name, then process the remaining arguments.  Returns
the pair (module name, command line) as UTF-16 unit sequences. -/
def cmdline (resolve : List Nat → List Nat) (cb : CommandBuilder) :
    Except Unit (List Nat × List Nat) :=
  let exe := resolve cb.argv0
  let cl0 := append_quoted exe []
  let exeOut := exe ++ [0]
  match cmdlineArgs cb.argvRest cl0 with
  | .error e => .error e
  | .ok cl => .ok (exeOut, cl)

theorem cmdlineArgs_isOk (rest : List (List Nat)) :
    ∀ acc, (cmdlineArgs rest acc).isOk = false ↔ ∃ a ∈ rest, 0 ∈ a := by
  induction rest with
  | nil => intro acc; simp [cmdlineArgs, Except.isOk, Except.toBool]
  | cons a rest ih =>
    intro acc
    rw [cmdlineArgs]
    by_cases h : (0 : Nat) ∈ a
    · simp [h, Except.isOk, Except.toBool]
    · simp only [h, if_false, ite_false, ih]
      simp [h]

theorem cmdlineArgs_getLast (rest : List (List Nat)) :
    ∀ acc cl, cmdlineArgs rest acc = .ok cl → cl.getLast? = some 0 := by
  induction rest with
  | nil =>
    intro acc cl h
    rw [cmdlineArgs] at h
    cases h
    exact List.getLast?_concat _
  | cons a rest ih =>
    intro acc cl h
    rw [cmdlineArgs] at h
    by_cases hz : (0 : Nat) ∈ a
    · rw [if_pos hz] at h
      exact Except.noConfusion h
    · rw [if_neg hz] at h
      exact ih _ cl h

/-- **C9** (corrected).  `cmdline` fails exactly when some argument *other
than argv[0]* contains an embedded nul — the `ensure!` check sits inside
`args.iter().skip(1)`, so the program itself is never checked — and on
success both the module name and the command line are nul-terminated. -/
theorem C9_cmdline_nul_rules :
    ∀ (resolve : List Nat → List Nat) (cb : CommandBuilder),
      ((cmdline resolve cb).isOk = false ↔ ∃ a ∈ cb.argvRest, 0 ∈ a) ∧
      (∀ exe cl, cmdline resolve cb = .ok (exe, cl) →
        exe.getLast? = some 0 ∧ cl.getLast? = some 0) := by
  intro resolve cb
  constructor
  · have hiso : (cmdline resolve cb).isOk =
        (cmdlineArgs cb.argvRest (append_quoted (resolve cb.argv0) [])).isOk := by
      rw [cmdline]
      rcases h : cmdlineArgs cb.argvRest (append_quoted (resolve cb.argv0) [])
        with e | cl <;> rfl
    rw [hiso, cmdlineArgs_isOk]
  · intro exe cl hok
    rw [cmdline] at hok
    rcases h : cmdlineArgs cb.argvRest (append_quoted (resolve cb.argv0) []) with e | cl2
    · rw [h] at hok
      exact Except.noConfusion hok
    · rw [h] at hok
      injection hok with hpair
      have h1 : exe = resolve cb.argv0 ++ [0] := congrArg Prod.fst hpair.symm
      have h2 : cl = cl2 := congrArg Prod.snd hpair.symm
      subst h1
      subst h2
      exact ⟨List.getLast?_concat _, cmdlineArgs_getLast _ _ _ h⟩

/-- Counterexample to the original C9: a program (`argv[0]`) containing an
embedded nul is *not* rejected — `cmdline` succeeds on it. -/
theorem C9_nul_in_argv0_accepted :
    (0 : Nat) ∈ [65, 0, 66] ∧
    (cmdline (fun s => s) (CommandBuilder.new [65, 0, 66])).isOk = true := by
  exact ⟨by decide, by decide⟩

/-- Witness for C9: a nul inside a later argument is rejected, and a
nul-free builder renders nul-terminated module and command line. -/
theorem C9_cmdline_nul_rules_witness :
    ((cmdline (fun s => s)
        ((CommandBuilder.new [99, 109, 100]).arg [102, 0])).isOk = false) ∧
    ([99, 109, 100, 0] : List Nat).getLast? = some 0 ∧
    ([99, 109, 100, 32, 111, 0] : List Nat).getLast? = some 0 := by
  refine ⟨?_, ?_⟩
  · exact (C9_cmdline_nul_rules (fun s => s)
      ((CommandBuilder.new [99, 109, 100]).arg [102, 0])).1.mpr
      ⟨[102, 0], by decide, by decide⟩
  · exact (C9_cmdline_nul_rules (fun s => s)
      ((CommandBuilder.new [99, 109, 100]).arg [111])).2
      [99, 109, 100, 0] [99, 109, 100, 32, 111, 0] (by rfl)

/-! ## ClientTab (`src/server/tab.rs`) -/

/-- Result of calling a Rust method that can panic. -/
inductive CallOutcome where
  | normal
  | panicked
deriving DecidableEq, Repr

/-- `ClientTab::advance_bytes` from `src/server/tab.rs`: its body is a bare
`panic!` with the message "ClientTab::advance_bytes not impl"; both the byte
buffer and the `TerminalHost` argument (abstracted as `H`) are ignored. -/
def ClientTab.advance_bytes {H : Type} (_buf : List Nat) (_host : H) :
    CallOutcome :=
  CallOutcome.panicked

/-- Counterexample to the original C6: `ClientTab::advance_bytes` does not
complete normally on the concrete buffer `"h"`; it panics. -/
theorem C6_advance_bytes_not_normal :
    ClientTab.advance_bytes (H := Unit) [0x68] () ≠ CallOutcome.normal := by
  decide

/-- **C6** (corrected).  `ClientTab` has the `advance_bytes` operation in its
`Tab` interface, but calling it never completes normally: for every byte
sequence and every host it unconditionally panics
("ClientTab::advance_bytes not impl"). -/
theorem C6_advance_bytes_always_panics :
    ∀ (H : Type) (buf : List Nat) (host : H),
      ClientTab.advance_bytes buf host = CallOutcome.panicked := by
  intro H buf host
  rfl

/-- Witness for C6 at a concrete buffer and host. -/
theorem C6_advance_bytes_always_panics_witness :
    ClientTab.advance_bytes (H := Unit) [0x68, 0x69] () =
      CallOutcome.panicked :=
  C6_advance_bytes_always_panics Unit [0x68, 0x69] ()

/-! ## RenderableState polling (`src/server/tab.rs`)

Time is modelled as a `Nat` of milliseconds (`Instant::now()` is the `now`
input of each call); whether the in-flight future has completed, and with
which result, are environment inputs (`ready`, `result`).  The abstract
payload type `α` stands for `GetCoarseTabRenderableDataResponse`. -/

/-- `POLL_INTERVAL: Duration = 50 ms`. -/
def POLL_INTERVAL : Nat := 50

/-- The `RenderableState` struct fields that drive polling.  `pollFuture`
records whether a `poll_future` is in flight (the future's identity is
environmental). -/
structure RState (α : Type) where
  coarse : Option α
  lastPoll : Nat
  dirtyAll : Bool
  dead : Bool
  pollFuture : Bool

/-- The tail of `RenderableState::poll` after the in-flight-future handling:
if `dirty_all` is clear and less than `POLL_INTERVAL` has elapsed since
`last_poll`, return without polling; otherwise issue a new
`GetCoarseTabRenderableData{tab_id, dirty_all}` request (recorded by the
returned `true` flag and `pollFuture := true`) and clear `dirty_all`. -/
def pollTail {α : Type} (s : RState α) (now : Nat) : RState α × Bool × Bool :=
  if s.dirtyAll = false ∧ now - s.lastPoll < POLL_INTERVAL then (s, false, false)
  else ({ s with pollFuture := true, dirtyAll := false }, true, false)

/-- `RenderableState::poll`: if the in-flight future is ready, take it and
`wait` on it — an `Err` propagates (third component `true`) with the future
already consumed; an `Ok` installs the response into `coarse` and stamps
`last_poll := now`, then falls through to the threshold check.  If a future
is in flight but not ready, return immediately.  Otherwise run the threshold
check.  The second component records whether a new request was issued. -/
def pollStep {α : Type} (s : RState α) (now : Nat) (ready : Bool)
    (result : Except Unit α) : RState α × Bool × Bool :=
  if s.pollFuture && ready then
    match result with
    | .error _ => ({ s with pollFuture := false }, false, true)
    | .ok c =>
      pollTail { s with coarse := some c, lastPoll := now, pollFuture := false } now
  else if s.pollFuture then (s, false, false)
  else pollTail s now

/-- `Renderable::has_dirty_lines` for `RenderableState`: run `poll`, set
`dead` on a polling error, then report whether the cached coarse data has a
non-empty dirty-line set (`isDirty` abstracts `!dirty_lines.is_empty()`).
Returns (new state, request issued, answer). -/
def hasDirtyLines {α : Type} (isDirty : α → Bool) (s : RState α) (now : Nat)
    (ready : Bool) (result : Except Unit α) : RState α × Bool × Bool :=
  let r := pollStep s now ready result
  let s2 := if r.2.2 then { r.1 with dead := true } else r.1
  (s2, r.2.1,
    match s2.coarse with
    | some c => isDirty c
    | none => false)

/-- A sequence of `has_dirty_lines` calls: each input is the call's
`(now, ready, result)` environment.  Returns the final state and the times at
which a `GetCoarseTabRenderableData` request was issued. -/
def runPoll {α : Type} (isDirty : α → Bool) :
    RState α → List (Nat × Bool × Except Unit α) → RState α × List Nat
  | s, [] => (s, [])
  | s, (now, ready, result) :: ins =>
    let r := hasDirtyLines isDirty s now ready result
    let rest := runPoll isDirty r.1 ins
    (rest.1, (if r.2.1 then [now] else []) ++ rest.2)

/-! Case lemmas for `pollStep`. -/

theorem pollTail_isErr {α : Type} (s : RState α) (now : Nat) :
    (pollTail s now).2.2 = false := by
  rw [pollTail]
  split <;> rfl

theorem pollTail_of_recent {α : Type} {s : RState α} {now : Nat}
    (h1 : s.dirtyAll = false) (h2 : now - s.lastPoll < POLL_INTERVAL) :
    pollTail s now = (s, false, false) := by
  rw [pollTail, if_pos ⟨h1, h2⟩]

theorem pollTail_of_due {α : Type} {s : RState α} {now : Nat}
    (h : ¬ (s.dirtyAll = false ∧ now - s.lastPoll < POLL_INTERVAL)) :
    pollTail s now =
      ({ s with pollFuture := true, dirtyAll := false }, true, false) := by
  rw [pollTail, if_neg h]

theorem pollStep_pending {α : Type} {s : RState α} (now : Nat)
    (result : Except Unit α) (hp : s.pollFuture = true) :
    pollStep s now false result = (s, false, false) := by
  rw [pollStep.eq_def, hp]
  rfl

theorem pollStep_ready_ok {α : Type} {s : RState α} (now : Nat) (c : α)
    (hp : s.pollFuture = true) :
    pollStep s now true (.ok c) =
      pollTail { s with coarse := some c, lastPoll := now, pollFuture := false }
        now := by
  rw [pollStep.eq_def, hp]
  rfl

theorem pollStep_idle {α : Type} {s : RState α} (now : Nat) (ready : Bool)
    (result : Except Unit α) (hp : s.pollFuture = false) :
    pollStep s now ready result = pollTail s now := by
  rw [pollStep.eq_def, hp]
  cases ready <;> rfl

theorem pollStep_isErr_of_isOk {α : Type} (s : RState α) (now : Nat)
    (ready : Bool) {result : Except Unit α} (h : result.isOk = true) :
    (pollStep s now ready result).2.2 = false := by
  rw [pollStep.eq_def]
  cases result with
  | error e => exact Bool.noConfusion h
  | ok c =>
    by_cases h1 : (s.pollFuture && ready) = true
    · rw [if_pos h1]
      exact pollTail_isErr _ _
    · rw [if_neg h1]
      by_cases h2 : s.pollFuture = true
      · rw [h2, if_pos rfl]
      · rw [show s.pollFuture = false from by revert h2; cases s.pollFuture <;> simp]
        exact pollTail_isErr _ _

theorem hasDirtyLines_of_isOk {α : Type} (isDirty : α → Bool) (s : RState α)
    (now : Nat) (ready : Bool) {result : Except Unit α}
    (h : result.isOk = true) :
    (hasDirtyLines isDirty s now ready result).1 =
      (pollStep s now ready result).1 ∧
    (hasDirtyLines isDirty s now ready result).2.1 =
      (pollStep s now ready result).2.1 := by
  rw [hasDirtyLines]
  simp [pollStep_isErr_of_isOk s now ready h]

theorem runPoll_cons {α : Type} (isDirty : α → Bool) (s : RState α)
    (now : Nat) (ready : Bool) (res : Except Unit α)
    (ins : List (Nat × Bool × Except Unit α)) :
    runPoll isDirty s ((now, ready, res) :: ins) =
      ((runPoll isDirty (hasDirtyLines isDirty s now ready res).1 ins).1,
        (if (hasDirtyLines isDirty s now ready res).2.1 then [now] else []) ++
          (runPoll isDirty (hasDirtyLines isDirty s now ready res).1 ins).2) := by
  rw [runPoll]

/-- Trace invariant for `runPoll`: over monotone call times and error-free
poll results, starting with `dirty_all` clear, consecutive issued requests
are at least `POLL_INTERVAL` apart; the first issued time is at least
`last_poll + POLL_INTERVAL` unless a future was already in flight, in which
case it is at least `POLL_INTERVAL` after any lower bound of the call
times. -/
theorem runPoll_aux {α : Type} (isDirty : α → Bool) :
    ∀ (inputs : List (Nat × Bool × Except Unit α)) (s : RState α),
      s.dirtyAll = false →
      List.Pairwise (· ≤ ·) (inputs.map fun i => i.1) →
      (∀ i ∈ inputs, s.lastPoll ≤ i.1) →
      (∀ i ∈ inputs, (i.2.2).isOk = true) →
      List.Chain' (fun a b => a + POLL_INTERVAL ≤ b)
        (runPoll isDirty s inputs).2 ∧
      (∀ t₀ ∈ ((runPoll isDirty s inputs).2).head?,
        s.lastPoll + POLL_INTERVAL ≤ t₀ ∨ s.pollFuture = true) ∧
      (s.pollFuture = true → ∀ m, (∀ i ∈ inputs, m ≤ i.1) →
        ∀ t₀ ∈ ((runPoll isDirty s inputs).2).head?,
          m + POLL_INTERVAL ≤ t₀) := by
  intro inputs
  induction inputs with
  | nil =>
    intro s _ _ _ _
    refine ⟨by simp [runPoll], by simp [runPoll], ?_⟩
    intro _ m _ t₀ ht₀
    simp [runPoll] at ht₀
  | cons inp ins ih =>
    obtain ⟨now, ready, res⟩ := inp
    intro s hd hpw hlp hok
    have hresok : res.isOk = true := hok _ (List.mem_cons_self _ _)
    have hoks : ∀ i ∈ ins, (i.2.2).isOk = true :=
      fun i hi => hok i (List.mem_cons_of_mem _ hi)
    rw [List.map_cons, List.pairwise_cons] at hpw
    have hnowle : ∀ i ∈ ins, now ≤ i.1 :=
      fun i hi => hpw.1 i.1 (List.mem_map_of_mem _ hi)
    have hpw' : List.Pairwise (· ≤ ·) (ins.map fun i => i.1) := hpw.2
    have hlp' : ∀ i ∈ ins, s.lastPoll ≤ i.1 :=
      fun i hi => hlp i (List.mem_cons_of_mem _ hi)
    have hstep := hasDirtyLines_of_isOk isDirty s now ready hresok
    rw [runPoll_cons]
    by_cases hpf : s.pollFuture = true
    · cases ready with
      | true =>
        cases res with
        | error e => exact Bool.noConfusion hresok
        | ok c =>
          have hs1 : pollStep s now true (.ok c) =
              ((⟨some c, now, s.dirtyAll, s.dead, false⟩ : RState α),
                false, false) := by
            rw [pollStep_ready_ok now c hpf]
            exact pollTail_of_recent hd (by simp [POLL_INTERVAL])
          have hfst := hstep.1
          have hsnd := hstep.2
          rw [hs1] at hfst hsnd
          rw [hfst, hsnd]
          obtain ⟨ch, hh2, _⟩ := ih
            (⟨some c, now, s.dirtyAll, s.dead, false⟩ : RState α)
            hd hpw' (fun i hi => hnowle i hi) hoks
          refine ⟨by simpa using ch, ?_, ?_⟩
          · intro t₀ _
            exact Or.inr hpf
          · intro _ m hm t₀ ht₀
            simp only [if_false, Bool.false_eq_true, ite_false,
              List.nil_append] at ht₀
            rcases hh2 t₀ ht₀ with h | h
            · have hmn : m ≤ now := hm _ (List.mem_cons_self _ _)
              have h2 : now + POLL_INTERVAL ≤ t₀ := h
              omega
            · exact Bool.noConfusion h
      | false =>
        have hs1 : pollStep s now false res = (s, false, false) :=
          pollStep_pending now res hpf
        have hfst := hstep.1
        have hsnd := hstep.2
        rw [hs1] at hfst hsnd
        rw [hfst, hsnd]
        obtain ⟨ch, hh2, hh3⟩ := ih s hd hpw' hlp' hoks
        refine ⟨by simpa using ch, ?_, ?_⟩
        · intro t₀ _
          exact Or.inr hpf
        · intro _ m hm t₀ ht₀
          simp only [if_false, Bool.false_eq_true, ite_false,
            List.nil_append] at ht₀
          exact hh3 hpf m (fun i hi => hm i (List.mem_cons_of_mem _ hi)) t₀ ht₀
    · have hpff : s.pollFuture = false := by
        revert hpf; cases s.pollFuture <;> simp
      have hidle : pollStep s now ready res = pollTail s now :=
        pollStep_idle now ready res hpff
      by_cases hrec : now - s.lastPoll < POLL_INTERVAL
      · have hs1 : pollStep s now ready res = (s, false, false) := by
          rw [hidle]
          exact pollTail_of_recent hd hrec
        have hfst := hstep.1
        have hsnd := hstep.2
        rw [hs1] at hfst hsnd
        rw [hfst, hsnd]
        obtain ⟨ch, hh2, _⟩ := ih s hd hpw' hlp' hoks
        refine ⟨by simpa using ch, ?_, ?_⟩
        · intro t₀ ht₀
          simp only [if_false, Bool.false_eq_true, ite_false,
            List.nil_append] at ht₀
          rcases hh2 t₀ ht₀ with h | h
          · exact Or.inl h
          · rw [hpff] at h
            exact Bool.noConfusion h
        · intro habs
          rw [hpff] at habs
          exact Bool.noConfusion habs
      · have hs1 : pollStep s now ready res =
            ((⟨s.coarse, s.lastPoll, false, s.dead, true⟩ : RState α),
              true, false) := by
          rw [hidle]
          exact pollTail_of_due (fun hcon => hrec hcon.2)
        have hfst := hstep.1
        have hsnd := hstep.2
        rw [hs1] at hfst hsnd
        rw [hfst, hsnd]
        obtain ⟨ch, _, hh3⟩ := ih
          (⟨s.coarse, s.lastPoll, false, s.dead, true⟩ : RState α)
          rfl hpw' hlp' hoks
        refine ⟨?_, ?_, ?_⟩
        · simp only [if_pos rfl, ite_true, List.singleton_append]
          exact List.chain'_cons'.mpr ⟨fun t₁ ht₁ => hh3 rfl now hnowle t₁ ht₁, ch⟩
        · intro t₀ ht₀
          simp only [if_pos rfl, ite_true, List.singleton_append,
            List.head?_cons, Option.mem_def, Option.some.injEq] at ht₀
          subst ht₀
          refine Or.inl ?_
          have hPI : POLL_INTERVAL = 50 := rfl
          rw [hPI] at hrec ⊢
          omega
        · intro habs
          rw [hpff] at habs
          exact Bool.noConfusion habs

/-- **C5.** For a `RenderableState` with `dirty_all = false` and no in-flight
poll future, `has_dirty_lines` issues a new `GetCoarseTabRenderableData`
request exactly when at least 50 ms have elapsed since `last_poll`; while a
poll future is pending no new request is issued and the state (including the
single in-flight future) is unchanged; and along any error-free sequence of
calls with monotone times started with `dirty_all` clear and no in-flight
future, consecutive issued requests are at least 50 ms apart — at most one
request per 50 ms window. -/
theorem C5_poll_rate_bound :
    ∀ (α : Type) (isDirty : α → Bool) (s : RState α) (now : Nat) (ready : Bool)
      (result : Except Unit α),
      (s.dirtyAll = false → s.pollFuture = false →
        ((hasDirtyLines isDirty s now ready result).2.1 = true ↔
          s.lastPoll + POLL_INTERVAL ≤ now)) ∧
      (s.pollFuture = true → ready = false →
        (hasDirtyLines isDirty s now ready result).1 = s ∧
        (hasDirtyLines isDirty s now ready result).2.1 = false) ∧
      (∀ inputs : List (Nat × Bool × Except Unit α),
        s.dirtyAll = false → s.pollFuture = false →
        List.Pairwise (· ≤ ·) (inputs.map fun i => i.1) →
        (∀ i ∈ inputs, s.lastPoll ≤ i.1) →
        (∀ i ∈ inputs, (i.2.2).isOk = true) →
        List.Chain' (fun a b => a + POLL_INTERVAL ≤ b)
          (runPoll isDirty s inputs).2) := by
  intro α isDirty s now ready result
  refine ⟨?_, ?_, ?_⟩
  · intro hd hpf
    have hidle : pollStep s now ready result = pollTail s now :=
      pollStep_idle now ready result hpf
    have hsnd : (hasDirtyLines isDirty s now ready result).2.1 =
        (pollStep s now ready result).2.1 := rfl
    rw [hsnd, hidle]
    have hPI : POLL_INTERVAL = 50 := rfl
    by_cases hrec : now - s.lastPoll < POLL_INTERVAL
    · rw [pollTail_of_recent hd hrec]
      rw [hPI] at hrec
      constructor
      · intro h
        exact Bool.noConfusion h
      · intro h
        rw [hPI] at h
        exact absurd h (by omega)
    · rw [pollTail_of_due (fun hcon => hrec hcon.2)]
      rw [hPI] at hrec
      constructor
      · intro _
        rw [hPI]
        omega
      · intro _
        rfl
  · intro hpf hready
    subst hready
    have hs1 : pollStep s now false result = (s, false, false) :=
      pollStep_pending now result hpf
    have herr : (pollStep s now false result).2.2 = false := by rw [hs1]
    constructor
    · rw [hasDirtyLines]
      simp only [herr, Bool.false_eq_true, if_false, ite_false, hs1]
    · rw [hasDirtyLines]
      simp only [herr, Bool.false_eq_true, if_false, ite_false, hs1]
  · intro inputs hd hpf hpw hlp hok
    exact (runPoll_aux isDirty inputs s hd hpw hlp hok).1

/-- Witness for C5: from the fresh polling state (`last_poll = 0`,
`dirty_all = false`, no in-flight future), a call at t = 60 ms issues a
request, and the two-call trace at t = 60 ms and t = 70 ms issues requests at
times forming a 50 ms-separated chain (here: only the first call issues). -/
theorem C5_poll_rate_bound_witness :
    ((hasDirtyLines (fun _ : Unit => true) ⟨none, 0, false, false, false⟩ 60
        false (.ok ())).2.1 = true) ∧
    List.Chain' (fun a b => a + POLL_INTERVAL ≤ b)
      (runPoll (fun _ : Unit => true) ⟨none, 0, false, false, false⟩
        [(60, false, .ok ()), (70, false, .ok ())]).2 := by
  constructor
  · exact ((C5_poll_rate_bound Unit (fun _ => true)
      ⟨none, 0, false, false, false⟩ 60 false (.ok ())).1 rfl rfl).mpr
      (by norm_num [POLL_INTERVAL])
  · exact (C5_poll_rate_bound Unit (fun _ => true)
      ⟨none, 0, false, false, false⟩ 0 false (.ok ())).2.2
      [(60, false, .ok ()), (70, false, .ok ())] rfl rfl
      (by simp) (by simp) (by decide)

/-! ## Mux registry (`src/mux/mod.rs`)

Tabs are represented by their `TabId`s (the registry stores `Rc<dyn Tab>`
values, but all registry operations act on ids).  `HashMap`s are modelled as
association lists with unique keys; iteration order is irrelevant to the
properties proved here.  `src/mux/window.rs` is not part of the source
snapshot, so `Window` is modelled from the spec (§4.4). -/

/-- Modelled from the spec: `Window` (`src/mux/window.rs` is missing from the
snapshot; spec §4.4 defines it) — an ordered list of tab ids plus an active
index. -/
structure WindowM where
  tabs : List Nat
  active : Nat
deriving DecidableEq, Repr

/-- Modelled from the spec: `Window::new`, a fresh empty window. -/
def WindowM.new : WindowM := ⟨[], 0⟩

/-- Modelled from the spec: `Window::push(tab)` appends and makes active. -/
def WindowM.push (w : WindowM) (t : Nat) : WindowM :=
  ⟨w.tabs ++ [t], w.tabs.length⟩

/-- Modelled from the spec: `Window::remove_by_id(tab_id) → bool` removes the
tab if present, returning whether it was present, and clamps the active index
to `min(active, len-1)`. -/
def WindowM.remove_by_id (w : WindowM) (t : Nat) : Bool × WindowM :=
  if w.tabs.contains t then
    let tabs := w.tabs.filter (fun x => x ≠ t)
    (true, ⟨tabs, min w.active (tabs.length - 1)⟩)
  else (false, w)

/-- Modelled from the spec: `Window::is_empty`. -/
def WindowM.is_empty (w : WindowM) : Bool := w.tabs.isEmpty

/-- The `Mux` registry state: the `tabs` map (as the list of registered tab
ids), the `windows` map (as an association list), and the window-id
allocation counter (the source's process-wide atomic). -/
structure MuxM where
  tabs : List Nat
  windows : List (Nat × WindowM)
  nextWindowId : Nat
deriving DecidableEq, Repr

/-- `Mux::new` as far as the tab/window maps are concerned: both empty. -/
def MuxM.init : MuxM := ⟨[], [], 0⟩

/-- `Mux::add_tab`: insert the tab id into `tabs` (a `HashMap` insert keyed
by the id; the reader-thread spawn does not touch the registry). -/
def MuxM.add_tab (s : MuxM) (t : Nat) : MuxM :=
  { s with tabs := if s.tabs.contains t then s.tabs else s.tabs ++ [t] }

/-- `Mux::new_empty_window`: allocate a fresh window id and insert an empty
window under it. -/
def MuxM.new_empty_window (s : MuxM) : MuxM :=
  { s with
    windows := s.windows ++ [(s.nextWindowId, WindowM.new)],
    nextWindowId := s.nextWindowId + 1 }

/-- `Mux::add_tab_to_window`: push the tab onto the addressed window; a
missing window id fails with `NoSuchWindow`, leaving the state unchanged. -/
def MuxM.add_tab_to_window (s : MuxM) (t w : Nat) : MuxM :=
  { s with
    windows := s.windows.map (fun p => if p.1 = w then (p.1, p.2.push t) else p) }

/-- The per-window body of the `Mux::remove_tab` loop: run `remove_by_id`;
when the removal succeeded and the window became empty the window is marked
dead (`none`), otherwise it is kept with its updated contents. -/
def removeEntry (t : Nat) (p : Nat × WindowM) : Option (Nat × WindowM) :=
  let r := p.2.remove_by_id t
  if r.1 && r.2.is_empty then none else some (p.1, r.2)

/-- `Mux::remove_tab`: drop the tab id from `tabs`, call `remove_by_id` on
every window, and delete every window for which the removal succeeded and the
window became empty. -/
def MuxM.remove_tab (s : MuxM) (t : Nat) : MuxM :=
  { s with
    tabs := s.tabs.erase t,
    windows := s.windows.filterMap (removeEntry t) }

/-- The operations quantified over by the containment claim. -/
inductive MuxOp where
  | addTab (t : Nat)
  | newEmptyWindow
  | addTabToWindow (t w : Nat)
  | removeTab (t : Nat)
deriving DecidableEq, Repr

def MuxM.applyOp (s : MuxM) : MuxOp → MuxM
  | .addTab t => s.add_tab t
  | .newEmptyWindow => s.new_empty_window
  | .addTabToWindow t w => s.add_tab_to_window t w
  | .removeTab t => s.remove_tab t

def MuxM.runOps (s : MuxM) (ops : List MuxOp) : MuxM :=
  ops.foldl MuxM.applyOp s

/-- The per-operation precondition: `add_tab_to_window` is only called with
a tab currently registered in `tabs`; every other operation is always
allowed. -/
def opGuard : MuxM → MuxOp → Bool
  | s, MuxOp.addTabToWindow t _ => s.tabs.contains t
  | _, _ => true

/-- A sequence is good when every operation meets `opGuard` at its state (the
way the source's callers use the registry: `spawn` registers the tab with
`add_tab` before `add_tab_to_window`). -/
def goodOps : MuxM → List MuxOp → Bool
  | _, [] => true
  | s, op :: ops => opGuard s op && goodOps (s.applyOp op) ops

/-- Containment: every tab id referenced by any window exists in `tabs`. -/
def MuxM.containment (s : MuxM) : Prop :=
  ∀ p ∈ s.windows, ∀ t ∈ p.2.tabs, t ∈ s.tabs

instance (s : MuxM) : Decidable s.containment :=
  inferInstanceAs (Decidable (∀ p ∈ s.windows, ∀ t ∈ p.2.tabs, t ∈ s.tabs))

/-- Structural well-formedness of the registry maps: unique tab ids, unique
window ids, and window ids below the allocation counter. -/
def MuxM.wf (s : MuxM) : Prop :=
  s.tabs.Nodup ∧ (s.windows.map Prod.fst).Nodup ∧
    ∀ p ∈ s.windows, p.1 < s.nextWindowId

/-- What the claim asserts of `remove_tab`: the tab is gone from `tabs`, gone
from every window, and every window it emptied is deleted. -/
def removeTabSpec (s : MuxM) (t : Nat) : Prop :=
  t ∉ (s.remove_tab t).tabs ∧
  (∀ p ∈ (s.remove_tab t).windows, t ∉ p.2.tabs) ∧
  (∀ p ∈ s.windows, p.2.tabs ≠ [] → (∀ u ∈ p.2.tabs, u = t) →
    ∀ q ∈ (s.remove_tab t).windows, q.1 ≠ p.1)

/-! Helper lemmas for the Mux invariant proof. -/

theorem removeEntry_eq (t : Nat) (p : Nat × WindowM) :
    removeEntry t p =
      if (p.2.remove_by_id t).1 && ((p.2.remove_by_id t).2).is_empty then none
      else some (p.1, (p.2.remove_by_id t).2) := rfl

theorem remove_by_id_tabs (w : WindowM) (t : Nat) :
    ((w.remove_by_id t).2).tabs =
      if w.tabs.contains t then w.tabs.filter (fun x => x ≠ t) else w.tabs := by
  rw [WindowM.remove_by_id]
  split <;> rfl

theorem remove_by_id_fst (w : WindowM) (t : Nat) :
    (w.remove_by_id t).1 = w.tabs.contains t := by
  rw [WindowM.remove_by_id]
  by_cases h : w.tabs.contains t = true
  · rw [if_pos h, h]
  · rw [if_neg h]
    revert h
    cases w.tabs.contains t <;> simp

theorem mem_remove_by_id {w : WindowM} {t u : Nat}
    (h : u ∈ ((w.remove_by_id t).2).tabs) : u ∈ w.tabs ∧ u ≠ t := by
  rw [remove_by_id_tabs] at h
  by_cases hct : w.tabs.contains t = true
  · rw [if_pos hct] at h
    rw [List.mem_filter] at h
    exact ⟨h.1, by simpa using h.2⟩
  · rw [if_neg hct] at h
    refine ⟨h, ?_⟩
    intro hut
    subst hut
    exact hct (List.elem_iff.mpr h)

theorem not_mem_remove_by_id (w : WindowM) (t : Nat) :
    t ∉ ((w.remove_by_id t).2).tabs := by
  intro h
  exact absurd rfl (mem_remove_by_id h).2

theorem keys_removeEntry_sublist (t : Nat) :
    ∀ l : List (Nat × WindowM),
      ((l.filterMap (removeEntry t)).map Prod.fst).Sublist (l.map Prod.fst) := by
  intro l
  induction l with
  | nil => simp
  | cons p ps ih =>
    rw [List.filterMap_cons]
    cases hfp : removeEntry t p with
    | none =>
      rw [List.map_cons]
      exact ih.cons p.1
    | some q =>
      have hq1 : q.1 = p.1 := by
        rw [removeEntry_eq] at hfp
        by_cases hcond : ((p.2.remove_by_id t).1 &&
            ((p.2.remove_by_id t).2).is_empty) = true
        · rw [if_pos hcond] at hfp
          exact Option.noConfusion hfp
        · rw [if_neg hcond] at hfp
          injection hfp with he
          rw [← he]
      rw [List.map_cons, List.map_cons, hq1]
      exact ih.cons₂ p.1

theorem mem_filterMap_removeEntry {s : MuxM} {t : Nat} {q : Nat × WindowM}
    (hq : q ∈ (s.remove_tab t).windows) :
    ∃ p ∈ s.windows, q.1 = p.1 ∧ q.2 = (p.2.remove_by_id t).2 ∧
      ¬ ((p.2.remove_by_id t).1 &&
          ((p.2.remove_by_id t).2).is_empty) = true := by
  rcases List.mem_filterMap.mp hq with ⟨p, hp, hfp⟩
  rw [removeEntry_eq] at hfp
  by_cases hcond : ((p.2.remove_by_id t).1 &&
      ((p.2.remove_by_id t).2).is_empty) = true
  · rw [if_pos hcond] at hfp
    exact Option.noConfusion hfp
  · rw [if_neg hcond] at hfp
    injection hfp with he
    exact ⟨p, hp, by rw [← he], by rw [← he], hcond⟩

/-- One step of any mux operation preserves well-formedness and containment,
provided `add_tab_to_window` is only invoked on a registered tab. -/
theorem applyOp_wf_containment (s : MuxM) (op : MuxOp)
    (hwf : s.wf) (hc : s.containment)
    (hgood : ∀ t w, op = MuxOp.addTabToWindow t w → s.tabs.contains t = true) :
    (s.applyOp op).wf ∧ (s.applyOp op).containment := by
  obtain ⟨hnd, hknd, hkb⟩ := hwf
  cases op with
  | addTab t =>
    show (s.add_tab t).wf ∧ (s.add_tab t).containment
    rw [MuxM.add_tab]
    by_cases h : s.tabs.contains t = true
    · rw [if_pos h]
      exact ⟨⟨hnd, hknd, hkb⟩, hc⟩
    · rw [if_neg h]
      have hnm : t ∉ s.tabs := fun hm => h (List.elem_iff.mpr hm)
      refine ⟨⟨?_, hknd, hkb⟩, ?_⟩
      · rw [List.nodup_append]
        refine ⟨hnd, List.nodup_singleton _, ?_⟩
        intro a ha hb
        rw [List.mem_singleton] at hb
        subst hb
        exact hnm ha
      · intro p hp u hu
        exact List.mem_append_left _ (hc p hp u hu)
  | newEmptyWindow =>
    show (s.new_empty_window).wf ∧ (s.new_empty_window).containment
    rw [MuxM.new_empty_window]
    refine ⟨⟨hnd, ?_, ?_⟩, ?_⟩
    · rw [List.map_append, List.nodup_append]
      refine ⟨hknd, by simp, ?_⟩
      intro a ha hb
      simp only [List.map_cons, List.map_nil, List.mem_singleton] at hb
      subst hb
      rcases List.mem_map.mp ha with ⟨p, hp, hpa⟩
      have := hkb p hp
      omega
    · intro p hp
      rcases List.mem_append.mp hp with hmem | hmem
      · exact Nat.lt_succ_of_lt (hkb p hmem)
      · rw [List.mem_singleton] at hmem
        subst hmem
        exact Nat.lt_succ_self _
    · intro p hp u hu
      rcases List.mem_append.mp hp with hmem | hmem
      · exact hc p hmem u hu
      · rw [List.mem_singleton] at hmem
        subst hmem
        simp [WindowM.new] at hu
  | addTabToWindow t w =>
    have hct : s.tabs.contains t = true := hgood t w rfl
    have hmt : t ∈ s.tabs := List.elem_iff.mp hct
    show (s.add_tab_to_window t w).wf ∧ (s.add_tab_to_window t w).containment
    rw [MuxM.add_tab_to_window]
    have hkeys : ((s.windows.map
          (fun p => if p.1 = w then (p.1, p.2.push t) else p)).map Prod.fst) =
        s.windows.map Prod.fst := by
      rw [List.map_map]
      apply List.map_congr_left
      intro p _
      by_cases hp : p.1 = w
      · rw [Function.comp_apply, if_pos hp]
      · rw [Function.comp_apply, if_neg hp]
    refine ⟨⟨hnd, ?_, ?_⟩, ?_⟩
    · rw [hkeys]
      exact hknd
    · intro p hp
      rcases List.mem_map.mp hp with ⟨p0, hp0, heq⟩
      by_cases hw : p0.1 = w
      · rw [if_pos hw] at heq
        rw [← heq]
        exact hkb p0 hp0
      · rw [if_neg hw] at heq
        rw [← heq]
        exact hkb p0 hp0
    · intro p hp u hu
      rcases List.mem_map.mp hp with ⟨p0, hp0, heq⟩
      by_cases hw : p0.1 = w
      · rw [if_pos hw] at heq
        rw [← heq] at hu
        rw [WindowM.push] at hu
        rcases List.mem_append.mp hu with hmem | hmem
        · exact hc p0 hp0 u hmem
        · rw [List.mem_singleton] at hmem
          subst hmem
          exact hmt
      · rw [if_neg hw] at heq
        rw [← heq] at hu
        exact hc p0 hp0 u hu
  | removeTab t =>
    show (s.remove_tab t).wf ∧ (s.remove_tab t).containment
    refine ⟨⟨hnd.erase t, ?_, ?_⟩, ?_⟩
    · exact hknd.sublist (keys_removeEntry_sublist t s.windows)
    · intro q hq
      rcases mem_filterMap_removeEntry hq with ⟨p, hp, hq1, _, _⟩
      rw [hq1]
      exact hkb p hp
    · intro q hq u hu
      rcases mem_filterMap_removeEntry hq with ⟨p, hp, _, hq2, _⟩
      rw [hq2] at hu
      have hmem := mem_remove_by_id hu
      exact (List.mem_erase_of_ne hmem.2).mpr (hc p hp u hmem.1)

/-- `remove_tab` meets its specification on any well-formed state. -/
theorem removeTabSpec_of_wf {s : MuxM} (hwf : s.wf) (t : Nat) :
    removeTabSpec s t := by
  obtain ⟨hnd, hknd, _⟩ := hwf
  refine ⟨?_, ?_, ?_⟩
  · show t ∉ s.tabs.erase t
    exact hnd.not_mem_erase
  · intro p hp
    rcases mem_filterMap_removeEntry hp with ⟨p0, _, _, hp2, _⟩
    rw [hp2]
    exact not_mem_remove_by_id p0.2 t
  · intro p hp hne hall q hq heq
    rcases mem_filterMap_removeEntry hq with ⟨p0, hp0, hq1, _, hcond⟩
    have hpp : p0 = p :=
      List.inj_on_of_nodup_map hknd hp0 hp (by rw [← hq1, heq])
    subst hpp
    apply hcond
    have hmt : t ∈ p0.2.tabs := by
      cases htl : p0.2.tabs with
      | nil => exact absurd htl hne
      | cons x xs =>
        have hx : x = t := hall x (by rw [htl]; exact List.mem_cons_self _ _)
        rw [← hx]
        exact List.mem_cons_self _ _
    have hct : p0.2.tabs.contains t = true := List.elem_iff.mpr hmt
    rw [remove_by_id_fst, hct, Bool.true_and, WindowM.is_empty,
      remove_by_id_tabs, if_pos hct, List.isEmpty_iff, List.filter_eq_nil_iff]
    intro a ha
    have := hall a ha
    simp [this]

/-- Good runs from the fresh mux stay well-formed and contained. -/
theorem runOps_wf_containment :
    ∀ (ops : List MuxOp) (s : MuxM), s.wf → s.containment →
      goodOps s ops = true → (s.runOps ops).wf ∧ (s.runOps ops).containment := by
  intro ops
  induction ops with
  | nil =>
    intro s hwf hc _
    exact ⟨hwf, hc⟩
  | cons op ops ih =>
    intro s hwf hc hgood
    rw [goodOps, Bool.and_eq_true] at hgood
    have hmatch : ∀ t w, op = MuxOp.addTabToWindow t w →
        s.tabs.contains t = true := by
      intro t w hop
      subst hop
      exact hgood.1
    have hstep := applyOp_wf_containment s op hwf hc hmatch
    exact ih (s.applyOp op) hstep.1 hstep.2 hgood.2

/-- Counterexample to the original C4: after the single good operation
`new_empty_window` the windows map holds an empty window, and (with no
precondition relating the two maps) `add_tab_to_window` on an unregistered
tab id leaves a window referencing a tab id absent from `tabs`. -/
theorem C4_invariant_counterexample :
    (∃ p ∈ (MuxM.runOps MuxM.init [MuxOp.newEmptyWindow]).windows,
      p.2.is_empty = true) ∧
    ¬ (MuxM.runOps MuxM.init
        [MuxOp.newEmptyWindow, MuxOp.addTabToWindow 5 0]).containment := by
  constructor
  · decide
  · decide

/-- **C4** (corrected; `Window` modelled from spec §4.4).  Along every
operation sequence from a fresh mux in which `add_tab_to_window` is only
applied to registered tabs, every tab id referenced by any window exists in
the tabs map; and at every reachable state `remove_tab(t)` removes `t` from
the tabs map and from every window and deletes every window that it thereby
empties (windows created empty by `new_empty_window` and never populated are
the only empty windows and are not deleted). -/
theorem C4_mux_containment :
    ∀ ops : List MuxOp, goodOps MuxM.init ops = true →
      (MuxM.runOps MuxM.init ops).containment ∧
      ∀ t : Nat, removeTabSpec (MuxM.runOps MuxM.init ops) t := by
  intro ops hgood
  have hinit_wf : MuxM.init.wf := by
    refine ⟨List.nodup_nil, ?_, ?_⟩
    · show (List.map Prod.fst []).Nodup
      simp
    · intro p hp
      simp [MuxM.init] at hp
  have hinit_c : MuxM.init.containment := by
    intro p hp u hu
    simp [MuxM.init] at hp
  have hrun := runOps_wf_containment ops MuxM.init hinit_wf hinit_c hgood
  exact ⟨hrun.2, fun t => removeTabSpec_of_wf hrun.1 t⟩

/-- Witness for C4 on the canonical good sequence: register a tab, open a
window, put the tab in it, then remove the tab (which also deletes the
emptied window). -/
theorem C4_mux_containment_witness :
    goodOps MuxM.init [MuxOp.addTab 1, MuxOp.newEmptyWindow,
      MuxOp.addTabToWindow 1 0, MuxOp.removeTab 1] = true ∧
    ((MuxM.runOps MuxM.init [MuxOp.addTab 1, MuxOp.newEmptyWindow,
        MuxOp.addTabToWindow 1 0, MuxOp.removeTab 1]).containment ∧
      ∀ t : Nat, removeTabSpec (MuxM.runOps MuxM.init [MuxOp.addTab 1,
        MuxOp.newEmptyWindow, MuxOp.addTabToWindow 1 0, MuxOp.removeTab 1]) t) :=
  ⟨by decide, C4_mux_containment _ (by decide)⟩

end Wezterm
